import Mathlib

/-!
Verification of the spectral-element discretization code in
src/final_project.py against its natural-language specification.

The Python file builds one-dimensional mass and stiffness matrices for a
Chebyshev spectral-element discretization of -Δu + u = f on [-1,1] with
homogeneous Neumann conditions, and contains stubs for the error
measurement and the conjugate-gradient solver.

Embedding conventions:
* numpy/scipy floats are modelled by exact reals `ℝ`;
* `numpy.polynomial.chebyshev.chebpts2 n` is `cos` of the uniform grid
  `linspace(-π, 0, n)`, and raises ValueError when `n < 2`;
* `scipy.interpolate.lagrange X y` is the unique interpolating polynomial,
  modelled by `Lagrange.interpolate`;
* `scipy.misc.derivative v x` with its default arguments (`dx=1.0`,
  `order=3`) is the central finite difference `(v(x+1) - v(x-1))/2`;
* the output of `numpy.polynomial.legendre.leggauss n` (quadrature points
  `q` and weights `w`) is an external library value and enters the
  definitions as a parameter; the library guarantees used by a theorem
  (distinct points, positive weights) appear as hypotheses;
* Python exceptions are modelled by `Except`.
-/

open Polynomial Finset Matrix

namespace FinalProject

noncomputable section

/-- Python exceptions relevant to this development.  `valueError` is
numpy's `ValueError` (raised by `chebpts2` when `npts < 2`).
`invalidDiscretization` is modelled from the spec: the spec's error
taxonomy names an `InvalidDiscretization` error for `n < 2`, but no such
class exists anywhere in the code. -/
inductive PyError where
  | valueError : PyError
  | invalidDiscretization : PyError
deriving DecidableEq

/-- `numpy.polynomial.chebyshev.chebpts2 n` at index `k`:
`cos(linspace(-π, 0, n)[k]) = cos(π k/(n-1) - π)`. -/
def chebpts2 (n : ℕ) (k : Fin n) : ℝ :=
  Real.cos (Real.pi * k / ((n : ℝ) - 1) - Real.pi)

/-- `get_e n` from the source: the n×n matrix with i-th row all zeros
except a one at index i. -/
def get_e (n : ℕ) : Fin n → Fin n → ℝ :=
  fun i j => if i = j then 1 else 0

/-- `get_basis(n, e, X, i) = scipy.interpolate.lagrange(X, e[i])`:
the interpolating polynomial through the values `e i` at the nodes `X`. -/
def get_basis (n : ℕ) (e : Fin n → Fin n → ℝ) (X : Fin n → ℝ) (i : Fin n) :
    ℝ[X] :=
  Lagrange.interpolate Finset.univ X (e i)

/-- `scipy.misc.derivative v x` with default `dx=1.0`, `n=1`, `order=3`:
the central finite difference `(v(x+1) - v(x-1))/2`.  This is what the
source calls to fill the matrix `D`. -/
def scipy_derivative (v : ℝ[X]) (x : ℝ) : ℝ :=
  (v.eval (x + 1) - v.eval (x - 1)) / 2

/-- The evaluation matrix `B` filled by the loop in
`compute_one_dimensional_matrices`: `B[i,α] = v_i(q_α)` where `v_i` is the
Lagrange basis at the Chebyshev nodes and `q` the quadrature points. -/
def Bmat (n : ℕ) (q : Fin n → ℝ) : Matrix (Fin n) (Fin n) ℝ :=
  Matrix.of fun i a => (get_basis n (get_e n) (chebpts2 n) i).eval (q a)

/-- The matrix `D` filled by the loop in `compute_one_dimensional_matrices`:
`D[i,α] = scipy.misc.derivative(v_i, q_α)` (a finite difference, exactly as
the source computes it). -/
def Dmat (n : ℕ) (q : Fin n → ℝ) : Matrix (Fin n) (Fin n) ℝ :=
  Matrix.of fun i a => scipy_derivative (get_basis n (get_e n) (chebpts2 n) i) (q a)

/-- `K = einsum('iq, q, jq', D, w, D)`. -/
def Kmat (n : ℕ) (q w : Fin n → ℝ) : Matrix (Fin n) (Fin n) ℝ :=
  Matrix.of fun i j => ∑ a, Dmat n q i a * w a * Dmat n q j a

/-- `M = einsum('iq, q, jq', B, w, B)`. -/
def Mmat (n : ℕ) (q w : Fin n → ℝ) : Matrix (Fin n) (Fin n) ℝ :=
  Matrix.of fun i j => ∑ a, Bmat n q i a * w a * Bmat n q j a

/-- `A = K + M`. -/
def Amat (n : ℕ) (q w : Fin n → ℝ) : Matrix (Fin n) (Fin n) ℝ :=
  Kmat n q w + Mmat n q w

/-- The triple `(K, M, A)` returned by `compute_one_dimensional_matrices`. -/
structure OneD (n : ℕ) where
  K : Matrix (Fin n) (Fin n) ℝ
  M : Matrix (Fin n) (Fin n) ℝ
  A : Matrix (Fin n) (Fin n) ℝ

/-- `compute_one_dimensional_matrices n`.  The parameters `q`, `w` are the
quadrature points and weights produced by `leggauss(n)` (external library
output).  For `n < 2`, `chebpts2` raises numpy's ValueError before any
matrix is formed, which the `Except` models. -/
def compute_one_dimensional_matrices (n : ℕ) (q w : Fin n → ℝ) :
    Except PyError (OneD n) :=
  if n < 2 then Except.error PyError.valueError
  else Except.ok ⟨Kmat n q w, Mmat n q w, Amat n q w⟩

/-- `exact_one_d`: the manufactured exact solution `cos(π x)`. -/
def exact_one_d (x : ℝ) : ℝ := Real.cos (Real.pi * x)

/-- `rhs_one_d`: the forcing term `cos(π x)(1 + π²)`. -/
def rhs_one_d (x : ℝ) : ℝ := Real.cos (Real.pi * x) * (1 + Real.pi ^ 2)

/-- `compute_error_one_d n exact rhs` from the source: the body is the
stub "Replace this with you implementation" and returns `1/n`. -/
def compute_error_one_d (n : ℕ) (exact rhs : ℝ → ℝ) : ℝ :=
  1 / n

/-- `cg(matvec, b, x0, tol, maxiter)` from the source: the body is a stub
that copies `x0` and returns it.  In the pure-value embedding the copy of
an array is the array itself. -/
def cg {α : Type} (matvec : α → α) (b x0 : α) (tol : ℝ) (maxiter : ℕ) : α :=
  x0

/-- Euclidean norm of the residual `b - matvec x`, the quantity the
spec's convergence requirement for `cg` is about. -/
def residual_norm {m : ℕ} (matvec : (Fin m → ℝ) → (Fin m → ℝ))
    (b x : Fin m → ℝ) : ℝ :=
  Real.sqrt (∑ i, (b i - matvec x i) ^ 2)

end

end FinalProject

namespace FinalProject

/-- C9: the source's `cg` is a stub: it returns a copy of the initial
guess `x0` unchanged, and its result does not depend on `matvec`, `b`,
`tol` or `maxiter` (in particular it never uses `matvec`). -/
theorem c9_cg_returns_x0 {α : Type} (matvec matvec2 : α → α) (b b2 x0 : α)
    (tol tol2 : ℝ) (maxiter maxiter2 : ℕ) :
    cg matvec b x0 tol maxiter = x0 ∧
    cg matvec b x0 tol maxiter = cg matvec2 b2 x0 tol2 maxiter2 :=
  ⟨rfl, rfl⟩

/-- C10: for every `n ≥ 1`, `compute_error_one_d n exact rhs` returns
exactly `1/n`, independently of the `exact` and `rhs` arguments. -/
theorem c10_error_stub (n : ℕ) (hn : 1 ≤ n) (f g f2 g2 : ℝ → ℝ) :
    compute_error_one_d n f g = 1 / n ∧
    compute_error_one_d n f g = compute_error_one_d n f2 g2 :=
  ⟨rfl, rfl⟩

/-- Witness for C10 at `n = 7` with the source's manufactured-solution
functions versus a different pair of functions. -/
theorem c10_error_stub_witness :
    compute_error_one_d 7 exact_one_d rhs_one_d = 1 / ((7 : ℕ) : ℝ) ∧
    compute_error_one_d 7 exact_one_d rhs_one_d =
      compute_error_one_d 7 (fun x => x) (fun x => x) :=
  c10_error_stub 7 (by decide) exact_one_d rhs_one_d (fun x => x) (fun x => x)

/-- C3 (code bug): `compute_error_one_d` is the stub `1/n` ("Replace this
with you implementation"), so while the returned value does decrease from
`n = 10` to `n = 20`, at `n = 20` it is exactly `1/20 = 0.05`, algebraic
decay nowhere near machine precision. -/
theorem c3_error_is_algebraic_stub :
    compute_error_one_d 10 exact_one_d rhs_one_d = 1 / 10 ∧
    compute_error_one_d 20 exact_one_d rhs_one_d = 1 / 20 ∧
    ¬ compute_error_one_d 20 exact_one_d rhs_one_d ≤ 1 / 10 ^ 10 := by
  refine ⟨by norm_num [compute_error_one_d], by norm_num [compute_error_one_d], ?_⟩
  norm_num [compute_error_one_d]

/-- C2 (code bug): `cg` is a stub returning `x0`; on the symmetric
positive definite operator `matvec = id` on `ℝ^1` with `b = (1)` and
`x0 = (0)`, the returned iterate has residual norm `1`, far above the
requested tolerance `1/100`. -/
theorem c2_cg_stub_misses_tolerance :
    cg (fun v : Fin 1 → ℝ => v) (fun _ => 1) (fun _ => 0) (1 / 100) 10000 =
      (fun _ => (0 : ℝ)) ∧
    residual_norm (fun v => v) (fun _ => 1)
      (cg (fun v : Fin 1 → ℝ => v) (fun _ => 1) (fun _ => 0) (1 / 100) 10000) = 1 ∧
    ¬ residual_norm (fun v => v) (fun _ => 1)
      (cg (fun v : Fin 1 → ℝ => v) (fun _ => 1) (fun _ => 0) (1 / 100) 10000) ≤
        1 / 100 := by
  have h1 : residual_norm (fun v : Fin 1 → ℝ => v) (fun _ => 1) (fun _ => 0) = 1 := by
    simp [residual_norm]
  refine ⟨rfl, h1, ?_⟩
  have h2 : residual_norm (fun v : Fin 1 → ℝ => v) (fun _ => 1)
      (cg (fun v : Fin 1 → ℝ => v) (fun _ => 1) (fun _ => 0) (1 / 100) 10000) = 1 := h1
  rw [h2]
  norm_num

/-- C4 counterexample: at `n = 1` the code fails with numpy's ValueError
(raised inside `chebpts2`), which is not the spec's
`InvalidDiscretization`. -/
theorem c4_not_invalid_discretization :
    compute_one_dimensional_matrices 1 (fun _ => 0) (fun _ => 0) =
      Except.error PyError.valueError ∧
    PyError.valueError ≠ PyError.invalidDiscretization :=
  ⟨rfl, by decide⟩

/-- C4 amended: for every `n < 2`, `compute_one_dimensional_matrices`
fails (it does not return matrices), but with numpy's ValueError from
`chebpts2`, since no `InvalidDiscretization` error exists in the code. -/
theorem c4_fails_with_value_error (n : ℕ) (hn : n < 2) (q w : Fin n → ℝ) :
    compute_one_dimensional_matrices n q w = Except.error PyError.valueError := by
  unfold compute_one_dimensional_matrices
  rw [if_pos hn]

/-- Witness for the amended C4 at `n = 1`. -/
theorem c4_fails_with_value_error_witness :
    compute_one_dimensional_matrices 1 (fun _ => 1) (fun _ => 1) =
      Except.error PyError.valueError :=
  c4_fails_with_value_error 1 (by decide) (fun _ => 1) (fun _ => 1)

/-- C5: the matrices `M` and `K` returned by
`compute_one_dimensional_matrices` are exactly symmetric, entry for entry,
by the `einsum` construction. -/
theorem c5_K_M_symmetric (n : ℕ) (q w : Fin n → ℝ) (r : OneD n)
    (h : compute_one_dimensional_matrices n q w = Except.ok r) :
    r.M.transpose = r.M ∧ r.K.transpose = r.K := by
  unfold compute_one_dimensional_matrices at h
  split at h
  · exact absurd h (by simp)
  · injection h with h
    subst h
    constructor
    · ext i j
      simp only [Matrix.transpose_apply, Mmat, Matrix.of_apply]
      exact Finset.sum_congr rfl fun a _ => by ring
    · ext i j
      simp only [Matrix.transpose_apply, Kmat, Matrix.of_apply]
      exact Finset.sum_congr rfl fun a _ => by ring

/-- Witness for C5 at `n = 2` with a concrete quadrature rule. -/
theorem c5_K_M_symmetric_witness :
    (Mmat 2 ![0, 1] ![1, 1]).transpose = Mmat 2 ![0, 1] ![1, 1] ∧
    (Kmat 2 ![0, 1] ![1, 1]).transpose = Kmat 2 ![0, 1] ![1, 1] :=
  c5_K_M_symmetric 2 ![0, 1] ![1, 1]
    ⟨Kmat 2 ![0, 1] ![1, 1], Mmat 2 ![0, 1] ![1, 1], Amat 2 ![0, 1] ![1, 1]⟩ rfl

end FinalProject

namespace FinalProject

/-- The Chebyshev type-2 nodes returned by `chebpts2` are strictly
increasing when `n ≥ 2`. -/
theorem chebpts2_strictMono (n : ℕ) (hn : 2 ≤ n) : StrictMono (chebpts2 n) := by
  intro a b hab
  have hn1 : (0 : ℝ) < (n : ℝ) - 1 := by
    have h2 : (2 : ℝ) ≤ (n : ℝ) := by exact_mod_cast hn
    linarith
  have hpi := Real.pi_pos
  have hbound : ∀ k : Fin n, Real.pi * k / ((n : ℝ) - 1) ∈ Set.Icc 0 Real.pi := by
    intro k
    constructor
    · positivity
    · rw [div_le_iff₀ hn1]
      have hk : (k : ℝ) ≤ (n : ℝ) - 1 := by
        have h1 : ((k : ℕ) : ℝ) + 1 ≤ (n : ℝ) := by
          exact_mod_cast Nat.succ_le_of_lt k.isLt
        linarith
      nlinarith
  have hneg : ∀ k : Fin n,
      chebpts2 n k = Real.cos (Real.pi - Real.pi * k / ((n : ℝ) - 1)) := by
    intro k
    rw [chebpts2, show Real.pi * k / ((n : ℝ) - 1) - Real.pi =
      -(Real.pi - Real.pi * k / ((n : ℝ) - 1)) by ring, Real.cos_neg]
  rw [hneg a, hneg b]
  have hab1 : (a : ℝ) < (b : ℝ) := by exact_mod_cast hab
  have hab2 : Real.pi * a / ((n : ℝ) - 1) < Real.pi * b / ((n : ℝ) - 1) := by
    apply div_lt_div_of_pos_right ?_ hn1
    exact mul_lt_mul_of_pos_left hab1 hpi
  have hmem : ∀ k : Fin n,
      Real.pi - Real.pi * k / ((n : ℝ) - 1) ∈ Set.Icc 0 Real.pi := by
    intro k
    obtain ⟨h1, h2⟩ := hbound k
    constructor <;> simp <;> linarith
  exact Real.strictAntiOn_cos (hmem b) (hmem a) (by linarith)

/-- The Chebyshev type-2 nodes are injective on `univ` when `n ≥ 2`. -/
theorem chebpts2_injOn (n : ℕ) (hn : 2 ≤ n) :
    Set.InjOn (chebpts2 n) (Finset.univ : Finset (Fin n)) :=
  fun a _ b _ hab => (chebpts2_strictMono n hn).injective hab

/-- C8: the basis polynomial built by `get_basis` on the Chebyshev type-2
node set satisfies the cardinal (Kronecker-delta) property exactly: value
1 at its own node, 0 at every other node. -/
theorem c8_cardinal_basis (n : ℕ) (hn : 2 ≤ n) (i j : Fin n) :
    (get_basis n (get_e n) (chebpts2 n) i).eval (chebpts2 n j) =
      if i = j then 1 else 0 := by
  rw [get_basis, Lagrange.eval_interpolate_at_node (get_e n i) (chebpts2_injOn n hn) (Finset.mem_univ j)]
  rfl

/-- Witness for C8 at `n = 2`, own node and other node. -/
theorem c8_cardinal_basis_witness :
    ((get_basis 2 (get_e 2) (chebpts2 2) 0).eval (chebpts2 2 0) =
      if (0 : Fin 2) = 0 then 1 else 0) ∧
    ((get_basis 2 (get_e 2) (chebpts2 2) 0).eval (chebpts2 2 1) =
      if (0 : Fin 2) = 1 then 1 else 0) :=
  ⟨c8_cardinal_basis 2 (by decide) 0 0, c8_cardinal_basis 2 (by decide) 0 1⟩

end FinalProject

namespace FinalProject

/-- `get_basis` applied to row `i` of `get_e` is the `i`-th Lagrange
cardinal basis polynomial. -/
theorem get_basis_eq_basis (n : ℕ) (X : Fin n → ℝ) (i : Fin n) :
    get_basis n (get_e n) X i = Lagrange.basis Finset.univ X i := by
  rw [get_basis, Lagrange.interpolate_apply]
  rw [Finset.sum_eq_single i]
  · simp [get_e]
  · intro j _ hji
    simp [get_e, hji.symm]
  · intro hi
    exact absurd (Finset.mem_univ i) hi

/-- The Lagrange cardinal basis polynomials at the Chebyshev nodes sum to
the constant polynomial 1 (partition of unity). -/
theorem sum_get_basis (n : ℕ) (hn : 2 ≤ n) :
    ∑ i, get_basis n (get_e n) (chebpts2 n) i = 1 := by
  have h0 : 0 < n := lt_of_lt_of_le (by norm_num) hn
  have hne : (Finset.univ : Finset (Fin n)).Nonempty := ⟨⟨0, h0⟩, Finset.mem_univ _⟩
  calc ∑ i, get_basis n (get_e n) (chebpts2 n) i
      = ∑ i, Lagrange.basis Finset.univ (chebpts2 n) i :=
        Finset.sum_congr rfl fun i _ => get_basis_eq_basis n (chebpts2 n) i
    _ = 1 := Lagrange.sum_basis (chebpts2_injOn n hn) hne

/-- Each column of the matrix `D` sums to zero: the finite difference the
source uses is linear, and the basis functions sum to the constant 1. -/
theorem sum_Dmat_col (n : ℕ) (hn : 2 ≤ n) (q : Fin n → ℝ) (a : Fin n) :
    ∑ j, Dmat n q j a = 0 := by
  have hsum : ∀ y : ℝ, ∑ j, (get_basis n (get_e n) (chebpts2 n) j).eval y = 1 := by
    intro y
    rw [← Polynomial.eval_finset_sum, sum_get_basis n hn, Polynomial.eval_one]
  simp only [Dmat, Matrix.of_apply, scipy_derivative]
  rw [← Finset.sum_div, Finset.sum_sub_distrib, hsum, hsum]
  norm_num

/-- C6: the stiffness matrix `K` returned by
`compute_one_dimensional_matrices` maps the all-ones vector to exactly
zero: its null space contains the constants. -/
theorem c6_K_kills_constants (n : ℕ) (hn : 2 ≤ n) (q w : Fin n → ℝ)
    (r : OneD n) (h : compute_one_dimensional_matrices n q w = Except.ok r) :
    r.K.mulVec (fun _ => 1) = 0 := by
  unfold compute_one_dimensional_matrices at h
  split at h
  · exact absurd h (by simp)
  · injection h with h
    subst h
    show (Kmat n q w).mulVec (fun _ => 1) = 0
    funext i
    simp only [Matrix.mulVec, Matrix.dotProduct, mul_one, Pi.zero_apply]
    simp only [Kmat, Matrix.of_apply]
    rw [Finset.sum_comm]
    refine Finset.sum_eq_zero fun a _ => ?_
    rw [← Finset.mul_sum, sum_Dmat_col n hn q a, mul_zero]

/-- Witness for C6 at `n = 2` with a concrete quadrature rule. -/
theorem c6_K_kills_constants_witness :
    (Kmat 2 ![0, 1] ![1, 1]).mulVec (fun _ => 1) = 0 :=
  c6_K_kills_constants 2 (by decide) ![0, 1] ![1, 1]
    ⟨Kmat 2 ![0, 1] ![1, 1], Mmat 2 ![0, 1] ![1, 1], Amat 2 ![0, 1] ![1, 1]⟩ rfl

end FinalProject

namespace FinalProject

/-- The `einsum` construction makes `K` exactly symmetric. -/
theorem Kmat_transpose (n : ℕ) (q w : Fin n → ℝ) :
    (Kmat n q w).transpose = Kmat n q w := by
  ext i j
  simp only [Matrix.transpose_apply, Kmat, Matrix.of_apply]
  exact Finset.sum_congr rfl fun a _ => by ring

/-- The `einsum` construction makes `M` exactly symmetric. -/
theorem Mmat_transpose (n : ℕ) (q w : Fin n → ℝ) :
    (Mmat n q w).transpose = Mmat n q w := by
  ext i j
  simp only [Matrix.transpose_apply, Mmat, Matrix.of_apply]
  exact Finset.sum_congr rfl fun a _ => by ring

/-- Quadratic form of a weighted Gram matrix `G i j = ∑ a, E i a w a E j a`:
it equals the weighted sum of squares of the contracted vector. -/
theorem quad_form_gram (n : ℕ) (E : Matrix (Fin n) (Fin n) ℝ) (w x : Fin n → ℝ) :
    x ⬝ᵥ (Matrix.of fun i j => ∑ a, E i a * w a * E j a).mulVec x =
      ∑ a, w a * (∑ i, x i * E i a) ^ 2 := by
  have lhs_eq : x ⬝ᵥ (Matrix.of fun i j => ∑ a, E i a * w a * E j a).mulVec x =
      ∑ i, ∑ j, ∑ a, x i * E i a * w a * E j a * x j := by
    simp only [Matrix.dotProduct, Matrix.mulVec, Matrix.of_apply]
    refine Finset.sum_congr rfl fun i _ => ?_
    rw [Finset.mul_sum]
    refine Finset.sum_congr rfl fun j _ => ?_
    rw [Finset.sum_mul, Finset.mul_sum]
    refine Finset.sum_congr rfl fun a _ => by ring
  have rhs_eq : ∀ a, w a * (∑ i, x i * E i a) ^ 2 =
      ∑ i, ∑ j, x i * E i a * w a * E j a * x j := by
    intro a
    rw [sq, Finset.sum_mul_sum, Finset.mul_sum]
    refine Finset.sum_congr rfl fun i _ => ?_
    rw [Finset.mul_sum]
    refine Finset.sum_congr rfl fun j _ => by ring
  have rhs_all : ∑ a, w a * (∑ i, x i * E i a) ^ 2 =
      ∑ a, ∑ i, ∑ j, x i * E i a * w a * E j a * x j :=
    Finset.sum_congr rfl fun a _ => rhs_eq a
  have swap1 : ∑ i, ∑ j, ∑ a, x i * E i a * w a * E j a * x j
      = ∑ i, ∑ a, ∑ j, x i * E i a * w a * E j a * x j :=
    Finset.sum_congr rfl fun i _ => Finset.sum_comm
  rw [lhs_eq, rhs_all, swap1, Finset.sum_comm]

/-- If `x ≠ 0` then some column contraction `∑ i, x i * B i a` is nonzero:
otherwise the interpolating polynomial with values `x` would have `n`
distinct roots while having degree `< n`, forcing `x = 0`. -/
theorem Bmat_col_nonzero (n : ℕ) (hn : 2 ≤ n) (q : Fin n → ℝ)
    (hq : Function.Injective q) (x : Fin n → ℝ) (hx : x ≠ 0) :
    ∃ a, ∑ i, x i * Bmat n q i a ≠ 0 := by
  by_contra hg
  push_neg at hg
  apply hx
  have hvX := chebpts2_injOn n hn
  have heval : ∀ a : Fin n,
      (Lagrange.interpolate Finset.univ (chebpts2 n) x).eval (q a) = 0 := by
    intro a
    have hexp : (Lagrange.interpolate Finset.univ (chebpts2 n) x).eval (q a) =
        ∑ i, x i * Bmat n q i a := by
      rw [Lagrange.interpolate_apply, Polynomial.eval_finset_sum]
      refine Finset.sum_congr rfl fun i _ => ?_
      rw [Polynomial.eval_mul, Polynomial.eval_C]
      congr 1
      show Polynomial.eval (q a) (Lagrange.basis Finset.univ (chebpts2 n) i) =
        Bmat n q i a
      rw [Bmat, Matrix.of_apply, get_basis_eq_basis]
    rw [hexp]
    exact hg a
  have hdeg : (Lagrange.interpolate Finset.univ (chebpts2 n) x).degree <
      (Finset.univ : Finset (Fin n)).card :=
    Lagrange.degree_interpolate_lt x hvX
  have hzero : Lagrange.interpolate Finset.univ (chebpts2 n) x = 0 :=
    Polynomial.eq_zero_of_degree_lt_of_eval_index_eq_zero Finset.univ
      (Set.injOn_of_injective hq) hdeg (fun a _ => heval a)
  funext j
  have hj := Lagrange.eval_interpolate_at_node x hvX (Finset.mem_univ j)
  rw [hzero, Polynomial.eval_zero] at hj
  exact hj.symm

/-- C7: the matrix `A = K + M` returned by
`compute_one_dimensional_matrices` is symmetric positive definite,
provided the quadrature points are distinct and the weights positive
(guarantees of Gauss-Legendre quadrature). -/
theorem c7_A_pos_def (n : ℕ) (hn : 2 ≤ n) (q w : Fin n → ℝ)
    (hq : Function.Injective q) (hw : ∀ a, 0 < w a) (r : OneD n)
    (h : compute_one_dimensional_matrices n q w = Except.ok r) :
    r.A.transpose = r.A ∧ ∀ x : Fin n → ℝ, x ≠ 0 → 0 < x ⬝ᵥ r.A.mulVec x := by
  unfold compute_one_dimensional_matrices at h
  split at h
  · exact absurd h (by simp)
  · injection h with h
    subst h
    constructor
    · show (Amat n q w).transpose = Amat n q w
      rw [Amat, Matrix.transpose_add, Kmat_transpose, Mmat_transpose]
    · intro x hx
      show 0 < x ⬝ᵥ (Amat n q w).mulVec x
      rw [Amat, Matrix.add_mulVec, Matrix.dotProduct_add]
      have hK : x ⬝ᵥ (Kmat n q w).mulVec x =
          ∑ a, w a * (∑ i, x i * Dmat n q i a) ^ 2 :=
        quad_form_gram n (Dmat n q) w x
      have hM : x ⬝ᵥ (Mmat n q w).mulVec x =
          ∑ a, w a * (∑ i, x i * Bmat n q i a) ^ 2 :=
        quad_form_gram n (Bmat n q) w x
      have hKnn : 0 ≤ x ⬝ᵥ (Kmat n q w).mulVec x := by
        rw [hK]
        exact Finset.sum_nonneg fun a _ => mul_nonneg (le_of_lt (hw a)) (sq_nonneg _)
      have hMpos : 0 < x ⬝ᵥ (Mmat n q w).mulVec x := by
        rw [hM]
        obtain ⟨a0, ha0⟩ := Bmat_col_nonzero n hn q hq x hx
        refine Finset.sum_pos' (fun a _ => mul_nonneg (le_of_lt (hw a)) (sq_nonneg _))
          ⟨a0, Finset.mem_univ a0, mul_pos (hw a0) (sq_pos_of_ne_zero ha0)⟩
      linarith

/-- Witness for C7 at `n = 2` with concrete distinct quadrature points and
positive weights. -/
theorem c7_A_pos_def_witness :
    (Amat 2 ![0, 1] ![1, 1]).transpose = Amat 2 ![0, 1] ![1, 1] ∧
    ∀ x : Fin 2 → ℝ, x ≠ 0 → 0 < x ⬝ᵥ (Amat 2 ![0, 1] ![1, 1]).mulVec x :=
  c7_A_pos_def 2 (by decide) ![0, 1] ![1, 1]
    (by
      intro a b hab
      fin_cases a <;> fin_cases b <;> simp_all)
    (by intro a; fin_cases a <;> simp)
    ⟨Kmat 2 ![0, 1] ![1, 1], Mmat 2 ![0, 1] ![1, 1], Amat 2 ![0, 1] ![1, 1]⟩ rfl

end FinalProject

namespace FinalProject

/-- `chebpts2 4` node 0 is `-1`. -/
theorem chebpts2_four_0 : chebpts2 4 0 = -1 := by
  have h : ((0 : Fin 4) : ℝ) = 0 := by norm_num
  rw [chebpts2, h,
    show Real.pi * 0 / (((4 : ℕ) : ℝ) - 1) - Real.pi = -Real.pi by push_cast; ring,
    Real.cos_neg, Real.cos_pi]

/-- `chebpts2 4` node 1 is `-1/2`. -/
theorem chebpts2_four_1 : chebpts2 4 1 = -(1/2) := by
  have h : ((1 : Fin 4) : ℝ) = 1 := by norm_num
  rw [chebpts2, h,
    show Real.pi * 1 / (((4 : ℕ) : ℝ) - 1) - Real.pi = -(Real.pi - Real.pi / 3) by
      push_cast; ring,
    Real.cos_neg, Real.cos_pi_sub, Real.cos_pi_div_three]

/-- `chebpts2 4` node 2 is `1/2`. -/
theorem chebpts2_four_2 : chebpts2 4 2 = 1/2 := by
  have h : ((2 : Fin 4) : ℝ) = 2 := by norm_num
  rw [chebpts2, h,
    show Real.pi * 2 / (((4 : ℕ) : ℝ) - 1) - Real.pi = -(Real.pi / 3) by
      push_cast; ring,
    Real.cos_neg, Real.cos_pi_div_three]

/-- `chebpts2 4` node 3 is `1`. -/
theorem chebpts2_four_3 : chebpts2 4 3 = 1 := by
  have h : ((3 : Fin 4) : ℝ) = 3 := by
    have h3 : ((3 : Fin 4) : ℕ) = 3 := rfl
    rw [h3]; norm_num
  rw [chebpts2, h,
    show Real.pi * 3 / (((4 : ℕ) : ℝ) - 1) - Real.pi = 0 by push_cast; ring,
    Real.cos_zero]

/-- For `n = 4` the first basis function is the explicit cubic
`-(2/3)(x + 1/2)(x - 1/2)(x - 1)`, with leading coefficient `-2/3`. -/
theorem get_basis_four_zero :
    get_basis 4 (get_e 4) (chebpts2 4) 0 =
      C (-(2/3) : ℝ) * ((X + C (1/2)) * ((X - C (1/2)) * (X - C 1))) := by
  have h0 : (C (-(2/3) : ℝ) * ((X + C (1/2)) * ((X - C (1/2)) * (X - C 1)))).eval
      (chebpts2 4 0) = 1 := by
    rw [chebpts2_four_0]; norm_num
  have h1 : (C (-(2/3) : ℝ) * ((X + C (1/2)) * ((X - C (1/2)) * (X - C 1)))).eval
      (chebpts2 4 1) = 0 := by
    rw [chebpts2_four_1]; norm_num
  have h2 : (C (-(2/3) : ℝ) * ((X + C (1/2)) * ((X - C (1/2)) * (X - C 1)))).eval
      (chebpts2 4 2) = 0 := by
    rw [chebpts2_four_2]; norm_num
  have h3 : (C (-(2/3) : ℝ) * ((X + C (1/2)) * ((X - C (1/2)) * (X - C 1)))).eval
      (chebpts2 4 3) = 0 := by
    rw [chebpts2_four_3]; norm_num
  rw [get_basis]
  symm
  apply Lagrange.eq_interpolate_of_eval_eq (get_e 4 0) (chebpts2_injOn 4 (by norm_num))
  · rw [Finset.card_univ, Fintype.card_fin]
    have hd : (C (-(2/3) : ℝ) * ((X + C (1/2)) * ((X - C (1/2)) * (X - C 1)))).degree =
        0 + (1 + (1 + 1)) := by
      rw [Polynomial.degree_mul, Polynomial.degree_mul, Polynomial.degree_mul,
        Polynomial.degree_C (by norm_num), Polynomial.degree_X_add_C,
        Polynomial.degree_X_sub_C, Polynomial.degree_X_sub_C]
    rw [hd]
    decide
  · intro i _
    fin_cases i
    · exact h0
    · exact h1
    · exact h2
    · exact h3

end FinalProject

namespace FinalProject

/-- C1 (code bug): at `n = 4` the entry `D[0,α]` that the source computes
via `scipy.misc.derivative` (a central finite difference with default
spacing 1.0) equals the exact derivative of the basis polynomial MINUS
2/3 (its leading coefficient), whatever the quadrature point `q α` is —
so `D` does not hold exact derivative values and `K` is not the exact
stiffness integral. -/
theorem c1_D_is_not_exact_derivative (q : Fin 4 → ℝ) (a : Fin 4) :
    Dmat 4 q 0 a =
      (Polynomial.derivative (get_basis 4 (get_e 4) (chebpts2 4) 0)).eval (q a) - 2/3 ∧
    Dmat 4 q 0 a ≠
      (Polynomial.derivative (get_basis 4 (get_e 4) (chebpts2 4) 0)).eval (q a) := by
  have key : Dmat 4 q 0 a =
      (Polynomial.derivative (get_basis 4 (get_e 4) (chebpts2 4) 0)).eval (q a) - 2/3 := by
    rw [Dmat, Matrix.of_apply, scipy_derivative, get_basis_four_zero]
    simp only [Polynomial.derivative_mul, Polynomial.derivative_C, Polynomial.derivative_add,
      Polynomial.derivative_sub, Polynomial.derivative_X, Polynomial.eval_mul,
      Polynomial.eval_add, Polynomial.eval_sub, Polynomial.eval_C, Polynomial.eval_X,
      Polynomial.eval_one, Polynomial.eval_zero]
    ring
  refine ⟨key, ?_⟩
  rw [key]
  intro hcontra
  linarith

end FinalProject
